import Mathlib

set_option maxHeartbeats 1000000

/-- A weighted prompt token: a name plus a strength, as in sanipro's Token
value object. The Python float weight is modelled as a rational number,
which agrees with float comparison on all the finite literals involved. -/
structure Token where
  name : String
  strength : Rat
deriving DecidableEq, Repr

/-- Modelled from the spec: the Token abc module is not under src; per the
spec a token supports producing a modified copy with a replaced name and
an unchanged weight, without mutating the original. -/
def Token.replace (t : Token) (replace_to : String) : Token :=
  { t with name := replace_to }

/-- Whether one character list occurs contiguously inside another. -/
def charsIn (needle : List Char) : List Char → Bool
  | [] => needle.isEmpty
  | c :: cs => needle.isPrefixOf (c :: cs) || charsIn needle cs

/-- Python's substring containment test needle in haystack on strings. -/
def strIn (needle haystack : String) : Bool :=
  charsIn needle.toList haystack.toList

namespace filters

/-- Inner loop of filters.mask over the exclude strings: the first exclude
string contained in the token's name triggers replacement and breaks the
loop; if none is contained the token passes through unchanged. -/
def maskOne (excludes : List String) (replace_to : String) (t : Token) : Token :=
  match excludes with
  | [] => t
  | e :: es => if strIn e t.name then t.replace replace_to else maskOne es replace_to t

/-- filters.mask: one output token per input token, in order. -/
def mask (prompts : List Token) (excludes : List String) (replace_to : String) :
    List Token :=
  prompts.map (maskOne excludes replace_to)

/-- Inner for/else loop of filters.exclude: the token is kept (appended,
breaking the loop) at the first exclude string not contained in its name;
when every exclude string is contained, or the exclude list is empty, the
for/else falls through to continue and the token is dropped. -/
def keepInExclude (excludes : List String) (n : String) : Bool :=
  match excludes with
  | [] => false
  | e :: es => if strIn e n then keepInExclude es n else true

/-- filters.exclude: keeps, in order, the tokens the inner loop appends. -/
def exclude (prompts : List Token) (excludes : List String) : List Token :=
  prompts.filter (fun t => keepInExclude excludes t.name)

/-- One dict-update step of collect_same_prompt: append the token to the
existing group of its name, else add a new (name, [token]) entry at the
end, as Python dict insertion order does. -/
def addPrompt (n : String) (t : Token) :
    List (String × List Token) → List (String × List Token)
  | [] => [(n, [t])]
  | (k, v) :: rest =>
    if k = n then (k, v ++ [t]) :: rest else (k, v) :: addPrompt n t rest

/-- filters.collect_same_prompt: group the tokens by name, keys in
first-seen order, each group in original order. -/
def collect_same_prompt (prompts : List Token) : List (String × List Token) :=
  prompts.foldl (fun u t => addPrompt t.name t u) []

/-- The strict comparison realised by Python list.sort with a strength key:
ascending, or descending when the reverse flag is set. -/
def ltStrength (reverse : Bool) (a b : Token) : Bool :=
  if reverse then decide (b.strength < a.strength) else decide (a.strength < b.strength)

/-- Insertion step of a stable sort: the new element is placed after every
element strictly below it and before the first other one, so elements with
equal keys keep their original relative order. -/
def sInsert (lt : Token → Token → Bool) (a : Token) : List Token → List Token
  | [] => [a]
  | b :: bs => if lt b a then b :: sInsert lt a bs else a :: b :: bs

/-- Stable sort modelling Python's stable list.sort. -/
def pySort (lt : Token → Token → Bool) : List Token → List Token
  | [] => []
  | a :: as => sInsert lt a (pySort lt as)

/-- filters.sort: sort each group by strength and append the groups in
dict (first-seen) order. -/
def sort (reverse : Bool) (prompts : List Token) : List Token :=
  (collect_same_prompt prompts).foldl
    (fun acc kv => acc ++ pySort (ltStrength reverse) kv.2) []

/-- filters.unique: sort each group by strength and append only the popped
first element of each sorted group, in dict (first-seen) order. -/
def unique (reverse : Bool) (prompts : List Token) : List Token :=
  (collect_same_prompt prompts).foldl
    (fun acc kv => acc ++ (pySort (ltStrength reverse) kv.2).take 1) []

end filters

namespace ExcludeCommand

/-- ExcludeCommand.execute: keeps the tokens whose name is not a member of
the configured exclude sequence (exact equality, not substring). -/
def execute (excludes : List String) (prompt : List Token) : List Token :=
  prompt.filter (fun t => !(excludes.contains t.name))

end ExcludeCommand

/-- The concrete Command variants appearing in Commands.get_pipeline, each
carrying its constructor-bound parameters. -/
inductive Command where
  | exclude (excludes : List String)
  | mask (excludes : List String) (replace_to : String)
  | random (seed : Option Int)
  | reset (value : Option Rat)
  | roundup (digits : Int)
  | similar (reverse : Bool)
  | sort_all (reverse : Bool)
  | sort (reverse : Bool)
  | unique (reverse : Bool)
deriving DecidableEq, Repr

/-- The two interchangeable parser variants. -/
inductive ParserVariant where
  | v1
  | v2
deriving DecidableEq, Repr

/-- A pipeline as configured by Commands.get_pipeline: a parser variant and
the ordered command list; append_command adds at the end and execution
order is insertion order. -/
structure PromptPipeline where
  variant : ParserVariant
  commands : List Command
deriving DecidableEq, Repr

/-- The errors Commands.get_pipeline can raise while configuring. -/
inductive ConfigError where
  | notImplemented (filt : String)
  | keyError (filt : String)
  | negativePrecision (digits : Int)
deriving DecidableEq, Repr

/-- The finalized argument record consumed by Commands.get_pipeline, with
the class-attribute defaults of the Commands class. -/
structure Commands where
  mask : List String := []
  exclude : List String := []
  replace_to : String := ""
  roundup : Int := 2
  filter : Option String := none
  use_parser_v2 : Bool := false
  reverse : Bool := false
  seed : Option Int := none
  value : Option Rat := none
deriving Repr

/-- Modelled from the spec: the filter modules defining each command_id
constant are not under src; the identifiers follow the spec's filter names
and are listed in the order of Commands.command_classes. -/
def command_ids : List String :=
  ["exclude", "mask", "random", "reset", "roundup", "similar", "sort_all", "sort", "unique"]

/-- The tuple of constructor closures built inside Commands.get_pipeline,
in source order; it has eight entries while command_ids has nine. -/
def command_funcs (cfg : Commands) : List Command :=
  [ Command.exclude cfg.exclude
  , Command.mask cfg.mask cfg.replace_to
  , Command.random cfg.seed
  , Command.reset cfg.value
  , Command.similar cfg.reverse
  , Command.sort_all cfg.reverse
  , Command.sort cfg.reverse
  , Command.unique cfg.reverse ]

/-- dict(zip(command_ids, command_funcs)): Python zip truncates to the
shorter sequence, exactly as List.zip does. -/
def command_map (cfg : Commands) : List (String × Command) :=
  command_ids.zip (command_funcs cfg)

/-- The filter identifiers the source comments mark as features usable in
parser_v1 only. -/
def parser_v1_features : List String :=
  ["mask", "random", "sort", "sort_all", "similar", "unique"]

/-- Modelled from the spec: the RoundUpCommand module is not under src; the
spec requires a negative precision to be rejected as a configuration
error, so constructing the rounding command validates the digit count. -/
def mkRoundUpCommand (digits : Int) : Except ConfigError Command :=
  if digits < 0 then .error (.negativePrecision digits) else .ok (.roundup digits)

/-- The guard at the top of Commands.get_pipeline: with parser v2 selected,
any chosen filter appearing among command_ids is refused. -/
def filterBlockedByV2 (cfg : Commands) : Bool :=
  cfg.use_parser_v2 &&
    (match cfg.filter with
     | some f => command_ids.contains f
     | none => false)

/-- Commands.get_pipeline: refuse v2-incompatible filters, build the
pipeline, always append the rounding command, then append the selected
filter's command looked up in the zip registry, if any. -/
def Commands.get_pipeline (cfg : Commands) : Except ConfigError PromptPipeline :=
  if filterBlockedByV2 cfg then
    .error (.notImplemented (cfg.filter.getD ""))
  else
    match mkRoundUpCommand cfg.roundup with
    | .error e => .error e
    | .ok roundCmd =>
      let base : PromptPipeline :=
        { variant := if cfg.use_parser_v2 then .v2 else .v1
        , commands := [roundCmd] }
      match cfg.filter with
      | none => .ok base
      | some f =>
        match (command_map cfg).lookup f with
        | some c => .ok { base with commands := base.commands ++ [c] }
        | none => .error (.keyError f)

/-- Whether get_pipeline rejects the configuration outright. -/
def isConfigRejected (cfg : Commands) : Bool :=
  match Commands.get_pipeline cfg with
  | .error _ => true
  | .ok _ => false

/-- Observable outcome of one run of cli.app. -/
structure AppOutcome where
  logged : Option String
  exit_code : Nat
  propagated : Bool
deriving DecidableEq, Repr

/-- cli.app's try/except/finally: the body's outcome is abstracted as an
Except value; an exception is logged and swallowed by the except clause,
and the finally clause exits the process with status 1 on every path,
including the successful one. -/
def app (run : Except String Unit) : AppOutcome :=
  match run with
  | .ok _ => { logged := none, exit_code := 1, propagated := false }
  | .error e => { logged := some e, exit_code := 1, propagated := false }

/-- Concrete configuration selecting the exclude filter. -/
def cfg_exclude_example : Commands :=
  { exclude := ["foo"], filter := some "exclude" }

/-- Concrete configuration selecting the sort filter. -/
def cfg_sort_example : Commands :=
  { filter := some "sort" }

/-- Concrete configuration selecting the unique filter. -/
def cfg_unique_example : Commands :=
  { filter := some "unique" }

/-- Concrete configuration selecting parser v2 together with sort. -/
def cfg_v2_sort : Commands :=
  { filter := some "sort", use_parser_v2 := true }

/-- Concrete configuration with a negative rounding precision. -/
def cfg_neg_roundup : Commands :=
  { roundup := -1 }

/-- Concatenation of the images of a list-valued function, the shape the
group-wise foldl appends produce. -/
def catMap (f : α → List β) : List α → List β
  | [] => []
  | x :: xs => f x ++ catMap f xs

/-- The distinct members of a list in first-seen order. -/
def firstSeen (l : List String) : List String :=
  l.foldl (fun acc n => if n ∈ acc then acc else acc ++ [n]) []

/-- The for/else keep test of filters.exclude amounts to: keep unless every
exclude string is contained in the name (so the empty list keeps nothing). -/
theorem keepInExclude_eq (es : List String) (n : String) :
    filters.keepInExclude es n = !(es.all (fun e => strIn e n)) := by
  induction es with
  | nil => rfl
  | cons e es ih =>
    cases h : strIn e n <;> simp [filters.keepInExclude, h, ih]

/-- C2: on the two-token example with exclude-set ["white"] matched by
substring, mask with replacement %%% replaces only the first token, keeping
its weight 6/5 (the rational value of 1.2), and the standalone exclude
keeps only the second token. -/
theorem claim_C2_mask_exclude_example :
    filters.mask
        [{ name := "white hair", strength := mkRat 6 5 }, { name := "thighhighs", strength := 1 }]
        ["white"] "%%%"
      = [{ name := "%%%", strength := mkRat 6 5 }, { name := "thighhighs", strength := 1 }]
    ∧ filters.exclude
        [{ name := "white hair", strength := mkRat 6 5 }, { name := "thighhighs", strength := 1 }]
        ["white"]
      = [{ name := "thighhighs", strength := 1 }] := by
  decide

/-- C3 counterexample: filters.exclude with an empty exclude list is not
the identity; on a one-token list it returns the empty list. -/
theorem claim_C3_counterexample :
    filters.exclude [{ name := "a", strength := 1 }] []
      ≠ [{ name := "a", strength := 1 }] := by
  decide

/-- C3 amended: with an empty exclude-set, ExcludeCommand.execute is the
identity, while the standalone filters.exclude drops every token because
its inner for/else loop never reaches the keeping branch. -/
theorem claim_C3_amended_empty_excludes (ts : List Token) :
    ExcludeCommand.execute [] ts = ts ∧ filters.exclude ts [] = [] := by
  constructor
  · simp [ExcludeCommand.execute]
  · simp [filters.exclude, filters.keepInExclude]

/-- C9: for a non-empty exclude list, filters.exclude keeps exactly the
tokens for which some exclude string fails to be a substring of the name,
that is, it removes a token if and only if every exclude string is a
substring of its name. -/
theorem claim_C9_exclude_iff_all_substrings (ts : List Token) (es : List String)
    (_hes : es ≠ []) :
    filters.exclude ts es
      = ts.filter (fun t => !(es.all (fun e => strIn e t.name))) := by
  unfold filters.exclude
  simp only [keepInExclude_eq]

/-- C9 witness: the general theorem evaluated on the concrete doctest
example with the non-empty exclude list ["white"]. -/
theorem claim_C9_witness :
    (["white"] : List String) ≠ []
    ∧ filters.exclude [({ name := "white hair", strength := 1 } : Token)] ["white"]
        = List.filter (fun t => !(List.all ["white"] (fun e => strIn e t.name)))
            [({ name := "white hair", strength := 1 } : Token)] :=
  ⟨by decide, claim_C9_exclude_iff_all_substrings _ _ (by decide)⟩

/-- C10: whatever the abstracted body of cli.app does, the outcome has exit
status 1 via the finally clause, no exception propagates, and a raised
error is logged by the except clause. -/
theorem claim_C10_app_always_exits_one (run : Except String Unit) :
    (app run).exit_code = 1 ∧ (app run).propagated = false
    ∧ (∀ e, run = Except.error e → (app run).logged = some e) := by
  cases run <;> simp [app]

/-- C10 witness: the theorem applied to a concrete failing run, with the
logging hypothesis discharged by rfl. -/
theorem claim_C10_witness :
    (app (Except.error "boom")).exit_code = 1
    ∧ (app (Except.error "boom")).logged = some "boom" :=
  ⟨(claim_C10_app_always_exits_one (Except.error "boom")).1,
   (claim_C10_app_always_exits_one (Except.error "boom")).2.2 "boom" rfl⟩

/-- C1 counterexample: with the exclude filter selected, get_pipeline
appends the rounding command first and the filter command last, so the
last pipeline stage is not the rounding command. -/
theorem claim_C1_counterexample :
    Commands.get_pipeline cfg_exclude_example
      = Except.ok { variant := ParserVariant.v1
                  , commands := [Command.roundup 2, Command.exclude ["foo"]] }
    ∧ [Command.roundup 2, Command.exclude ["foo"]].getLast?
        ≠ some (Command.roundup 2) :=
  ⟨rfl, by decide⟩

/-- C1 amended: in every pipeline get_pipeline returns, the rounding
command is appended first; the selected filter command, if any, comes
after it, and rounding is the last stage only when no filter is chosen. -/
theorem claim_C1_amended_roundup_first (cfg : Commands) (p : PromptPipeline)
    (h : Commands.get_pipeline cfg = Except.ok p) :
    p.commands.head? = some (Command.roundup cfg.roundup)
    ∧ (cfg.filter = none → p.commands = [Command.roundup cfg.roundup])
    ∧ (∀ f, cfg.filter = some f → ∃ c, p.commands = [Command.roundup cfg.roundup, c]) := by
  unfold Commands.get_pipeline at h
  split at h
  · exact absurd h (by simp)
  · split at h
    · exact absurd h (by simp)
    · rename_i roundCmd heq
      unfold mkRoundUpCommand at heq
      split at heq
      · exact absurd heq (by simp)
      injection heq with heqc
      subst heqc
      dsimp only at h
      split at h
      · rename_i hf
        injection h with hp
        subst hp
        exact ⟨rfl, fun _ => rfl, fun f hc => by rw [hf] at hc; cases hc⟩
      · rename_i f hf
        split at h
        · rename_i c hl
          injection h with hp
          subst hp
          refine ⟨rfl, ?_, ?_⟩
          · intro hn
            rw [hf] at hn
            cases hn
          · intro g hg
            exact ⟨c, by simp⟩
        · exact absurd h (by simp)

/-- C1 witness: the amended theorem applied to the concrete exclude
configuration, whose returned pipeline is computed by rfl. -/
theorem claim_C1_witness :
    ({ variant := ParserVariant.v1
     , commands := [Command.roundup 2, Command.exclude ["foo"]] } : PromptPipeline).commands.head?
      = some (Command.roundup cfg_exclude_example.roundup)
    ∧ (cfg_exclude_example.filter = none →
        ({ variant := ParserVariant.v1
         , commands := [Command.roundup 2, Command.exclude ["foo"]] } : PromptPipeline).commands
          = [Command.roundup cfg_exclude_example.roundup])
    ∧ (∀ f, cfg_exclude_example.filter = some f →
        ∃ c, ({ variant := ParserVariant.v1
              , commands := [Command.roundup 2, Command.exclude ["foo"]] } : PromptPipeline).commands
              = [Command.roundup cfg_exclude_example.roundup, c]) :=
  claim_C1_amended_roundup_first cfg_exclude_example _ rfl

/-- C4: the zip registry is misaligned because command_funcs omits the
rounding constructor while command_ids contains nine identifiers: the sort
identifier builds the unique command, and looking up the unique identifier
fails, so get_pipeline raises KeyError for it. -/
theorem claim_C4_registry_misaligned :
    Commands.get_pipeline cfg_sort_example
      = Except.ok { variant := ParserVariant.v1
                  , commands := [Command.roundup 2, Command.unique false] }
    ∧ Commands.get_pipeline cfg_unique_example
      = Except.error (ConfigError.keyError "unique")
    ∧ (command_map cfg_sort_example).lookup "sort" = some (Command.unique false)
    ∧ (command_map cfg_unique_example).lookup "unique" = none :=
  ⟨rfl, rfl, rfl, rfl⟩

/-- C5: selecting parser v2 together with any filter the source marks as a
parser-v1 feature makes get_pipeline fail with the NotImplementedError
naming that filter, before the pipeline exists, so before any parsing or
command execution. -/
theorem claim_C5_v2_rejects_v1_filters (cfg : Commands) (f : String)
    (h2 : cfg.use_parser_v2 = true) (hf : cfg.filter = some f)
    (hv1 : f ∈ parser_v1_features) :
    Commands.get_pipeline cfg = Except.error (ConfigError.notImplemented f) := by
  have hin : command_ids.contains f = true := by
    fin_cases hv1 <;> decide
  have hb : filterBlockedByV2 cfg = true := by
    unfold filterBlockedByV2
    rw [hf, h2]
    simpa using hin
  unfold Commands.get_pipeline
  rw [if_pos hb, hf]
  rfl

/-- C5 witness: parser v2 with the sort filter is refused with the
NotImplementedError naming sort. -/
theorem claim_C5_witness :
    Commands.get_pipeline cfg_v2_sort = Except.error (ConfigError.notImplemented "sort") :=
  claim_C5_v2_rejects_v1_filters cfg_v2_sort "sort" rfl rfl (by decide)

/-- C8: a negative rounding precision makes get_pipeline reject the
configuration, and whenever the v2 guard does not fire first the error is
precisely the negative-precision configuration error; either way no
pipeline is produced, so no command ever executes on a token. -/
theorem claim_C8_negative_roundup_rejected (cfg : Commands)
    (h : cfg.roundup < 0) :
    isConfigRejected cfg = true
    ∧ (filterBlockedByV2 cfg = false →
        Commands.get_pipeline cfg
          = Except.error (ConfigError.negativePrecision cfg.roundup)) := by
  have herr : ∀ hb : filterBlockedByV2 cfg = false,
      Commands.get_pipeline cfg
        = Except.error (ConfigError.negativePrecision cfg.roundup) := by
    intro hb
    unfold Commands.get_pipeline
    rw [if_neg (by simp [hb]), mkRoundUpCommand, if_pos h]
  constructor
  · unfold isConfigRejected
    cases hb : filterBlockedByV2 cfg with
    | true =>
      unfold Commands.get_pipeline
      rw [if_pos hb]
    | false =>
      rw [herr hb]
  · exact herr

/-- C8 witness: the default configuration with the precision set to the
negative value -1 is rejected. -/
theorem claim_C8_witness :
    isConfigRejected cfg_neg_roundup = true :=
  (claim_C8_negative_roundup_rejected cfg_neg_roundup (by decide)).1

/-- Insertion past a strictly smaller head. -/
theorem sInsert_cons_pos (lt : Token → Token → Bool) (a b : Token) (bs : List Token)
    (h : lt b a = true) :
    filters.sInsert lt a (b :: bs) = b :: filters.sInsert lt a bs := by
  simp [filters.sInsert, h]

/-- Insertion in front of a head that is not strictly smaller. -/
theorem sInsert_cons_neg (lt : Token → Token → Bool) (a b : Token) (bs : List Token)
    (h : lt b a = false) :
    filters.sInsert lt a (b :: bs) = a :: b :: bs := by
  simp [filters.sInsert, h]

/-- Insertion into the empty list. -/
theorem sInsert_nil (lt : Token → Token → Bool) (a : Token) :
    filters.sInsert lt a [] = [a] := rfl

/-- pySort of a cons is insertion into the sorted tail. -/
theorem pySort_cons (lt : Token → Token → Bool) (a : Token) (as : List Token) :
    filters.pySort lt (a :: as) = filters.sInsert lt a (filters.pySort lt as) := rfl

/-- Membership in the insertion step. -/
theorem mem_sInsert (lt : Token → Token → Bool) (a x : Token) (s : List Token) :
    x ∈ filters.sInsert lt a s ↔ x = a ∨ x ∈ s := by
  induction s with
  | nil => simp [sInsert_nil]
  | cons b bs ih =>
    cases h : lt b a with
    | true =>
      rw [sInsert_cons_pos lt a b bs h]
      simp only [List.mem_cons, ih]
      tauto
    | false =>
      rw [sInsert_cons_neg lt a b bs h]
      simp only [List.mem_cons]

/-- The insertion step permutes consing. -/
theorem sInsert_perm (lt : Token → Token → Bool) (a : Token) (s : List Token) :
    (filters.sInsert lt a s).Perm (a :: s) := by
  induction s with
  | nil => rw [sInsert_nil]
  | cons b bs ih =>
    cases h : lt b a with
    | true =>
      rw [sInsert_cons_pos lt a b bs h]
      exact (ih.cons b).trans (List.Perm.swap a b bs)
    | false =>
      rw [sInsert_cons_neg lt a b bs h]

/-- pySort permutes its input. -/
theorem pySort_perm (lt : Token → Token → Bool) (l : List Token) :
    (filters.pySort lt l).Perm l := by
  induction l with
  | nil => exact List.Perm.refl _
  | cons a as ih =>
    rw [pySort_cons]
    exact (sInsert_perm lt a _).trans (ih.cons a)

/-- The insertion step preserves sortedness, stated as: no later element is
strictly below an earlier one. -/
theorem sInsert_pairwise (lt : Token → Token → Bool)
    (hasym : ∀ x y, lt x y = true → lt y x = false)
    (hntrans : ∀ x y z, lt y x = false → lt z y = false → lt z x = false)
    (a : Token) (s : List Token)
    (hs : List.Pairwise (fun x y => lt y x = false) s) :
    List.Pairwise (fun x y => lt y x = false) (filters.sInsert lt a s) := by
  induction s with
  | nil => simp [sInsert_nil]
  | cons b bs ih =>
    rw [List.pairwise_cons] at hs
    obtain ⟨hb, hbs⟩ := hs
    cases h : lt b a with
    | true =>
      rw [sInsert_cons_pos lt a b bs h, List.pairwise_cons]
      refine ⟨?_, ih hbs⟩
      intro z hz
      rw [mem_sInsert] at hz
      rcases hz with rfl | hz
      · exact hasym b z h
      · exact hb z hz
    | false =>
      rw [sInsert_cons_neg lt a b bs h, List.pairwise_cons]
      constructor
      · intro z hz
        rcases List.mem_cons.mp hz with rfl | hz
        · exact h
        · exact hntrans a b z h (hb z hz)
      · rw [List.pairwise_cons]
        exact ⟨hb, hbs⟩

/-- pySort output is sorted: no later element is strictly below an earlier
one. -/
theorem pySort_pairwise (lt : Token → Token → Bool)
    (hasym : ∀ x y, lt x y = true → lt y x = false)
    (hntrans : ∀ x y z, lt y x = false → lt z y = false → lt z x = false)
    (l : List Token) :
    List.Pairwise (fun x y => lt y x = false) (filters.pySort lt l) := by
  induction l with
  | nil => simp [filters.pySort]
  | cons a as ih =>
    rw [pySort_cons]
    exact sInsert_pairwise lt hasym hntrans a _ ih

/-- Inserting an element satisfying p, when everything strictly below it
fails p, prepends it to the filtered list. -/
theorem sInsert_filter_pos (lt : Token → Token → Bool) (p : Token → Bool)
    (a : Token) (s : List Token)
    (hpa : p a = true) (hskip : ∀ b, lt b a = true → p b = false) :
    (filters.sInsert lt a s).filter p = a :: s.filter p := by
  induction s with
  | nil => simp [sInsert_nil, hpa]
  | cons b bs ih =>
    cases h : lt b a with
    | true =>
      rw [sInsert_cons_pos lt a b bs h]
      simp [List.filter_cons, hskip b h, ih]
    | false =>
      rw [sInsert_cons_neg lt a b bs h]
      simp [List.filter_cons, hpa]

/-- Inserting an element failing p leaves the filtered list unchanged. -/
theorem sInsert_filter_neg (lt : Token → Token → Bool) (p : Token → Bool)
    (a : Token) (s : List Token) (hpa : p a = false) :
    (filters.sInsert lt a s).filter p = s.filter p := by
  induction s with
  | nil => simp [sInsert_nil, hpa]
  | cons b bs ih =>
    cases h : lt b a with
    | true =>
      rw [sInsert_cons_pos lt a b bs h]
      simp [List.filter_cons, ih]
    | false =>
      rw [sInsert_cons_neg lt a b bs h]
      simp [List.filter_cons, hpa]

/-- Stability of pySort: filtering by any predicate that everything below a
satisfying element fails recovers the original relative order. -/
theorem pySort_filter (lt : Token → Token → Bool) (p : Token → Bool)
    (hcomp : ∀ x y, p y = true → lt x y = true → p x = false)
    (l : List Token) :
    (filters.pySort lt l).filter p = l.filter p := by
  induction l with
  | nil => rfl
  | cons a as ih =>
    rw [pySort_cons]
    cases hpa : p a with
    | true =>
      rw [sInsert_filter_pos lt p a (filters.pySort lt as) hpa
        (fun b hb => hcomp b a hpa hb)]
      simp [List.filter_cons, ih, hpa]
    | false =>
      rw [sInsert_filter_neg lt p a (filters.pySort lt as) hpa]
      simp [List.filter_cons, ih, hpa]

/-- If a stronger predicate holds at the first witness of a weaker one,
find? agrees on the two predicates. -/
theorem find?_of_stronger (p q : Token → Bool) (l : List Token) (h : Token)
    (himp : ∀ t, p t = true → q t = true)
    (hq : l.find? q = some h) (hp : p h = true) :
    l.find? p = some h := by
  induction l with
  | nil => simp at hq
  | cons x xs ih =>
    cases hqx : q x with
    | true =>
      simp only [List.find?, hqx] at hq
      injection hq with hq
      subst hq
      simp only [List.find?, hp]
    | false =>
      simp only [List.find?, hqx] at hq
      have hpx : p x = false := by
        cases hpx : p x
        · rfl
        · exact absurd (himp x hpx) (by simp [hqx])
      simp only [List.find?, hpx]
      exact ih hq

/-- The head of pySort is the first element of the input that no other
element beats under the comparison: the first extreme-key element in
original input order. -/
theorem pySort_head (lt : Token → Token → Bool)
    (hirr : ∀ x, lt x x = false)
    (hasym : ∀ x y, lt x y = true → lt y x = false)
    (hntrans : ∀ x y z, lt y x = false → lt z y = false → lt z x = false)
    (l : List Token) :
    (filters.pySort lt l).head? = l.find? (fun t => l.all (fun u => !(lt u t))) := by
  induction l with
  | nil => rfl
  | cons a as ih =>
    cases hs : filters.pySort lt as with
    | nil =>
      have hperm := pySort_perm lt as
      rw [hs] at hperm
      have has : as = [] := hperm.symm.eq_nil
      subst has
      simp [pySort_cons, filters.pySort, sInsert_nil, List.find?, hirr]
    | cons hd rest =>
      have hperm := pySort_perm lt as
      rw [hs] at hperm
      have hpair := pySort_pairwise lt hasym hntrans as
      rw [hs, List.pairwise_cons] at hpair
      have hmemhd : hd ∈ as := hperm.mem_iff.mp (by simp)
      have ihs : as.find? (fun t => as.all (fun u => !(lt u t))) = some hd := by
        rw [← ih, hs]
        rfl
      cases hha : lt hd a with
      | true =>
        have hLHS : (filters.pySort lt (a :: as)).head? = some hd := by
          rw [pySort_cons, hs, sInsert_cons_pos lt a hd rest hha]
          rfl
        have hpa : ((a :: as).all (fun u => !(lt u a))) = false := by
          cases hall : (a :: as).all (fun u => !(lt u a)) with
          | false => rfl
          | true =>
            rw [List.all_eq_true] at hall
            have := hall hd (by simp [hmemhd])
            simp [hha] at this
        rw [hLHS]
        simp only [List.find?, hpa]
        refine (find?_of_stronger _ (fun t => as.all (fun u => !(lt u t))) as hd ?_ ihs ?_).symm
        · intro t ht
          rw [List.all_cons, Bool.and_eq_true] at ht
          exact ht.2
        · rw [List.all_cons, Bool.and_eq_true]
          constructor
          · simp [hasym hd a hha]
          · have hph := List.find?_some ihs
            exact hph
      | false =>
        have hLHS : (filters.pySort lt (a :: as)).head? = some a := by
          rw [pySort_cons, hs, sInsert_cons_neg lt a hd rest hha]
          rfl
        have hpa : ((a :: as).all (fun u => !(lt u a))) = true := by
          rw [List.all_eq_true]
          intro u hu
          rcases List.mem_cons.mp hu with rfl | hu
          · simp [hirr]
          · have hu' : u ∈ hd :: rest := hperm.mem_iff.mpr hu
            rcases List.mem_cons.mp hu' with rfl | hu''
            · simp [hha]
            · have hlt : lt u hd = false := hpair.1 u hu''
              simp [hntrans a hd u hha hlt]
        rw [hLHS]
        simp only [List.find?, hpa]

/-- The strength comparison is irreflexive. -/
theorem ltStrength_irrefl (reverse : Bool) (x : Token) :
    filters.ltStrength reverse x x = false := by
  cases reverse <;> simp [filters.ltStrength]

/-- The strength comparison is asymmetric. -/
theorem ltStrength_asymm (reverse : Bool) (x y : Token)
    (h : filters.ltStrength reverse x y = true) :
    filters.ltStrength reverse y x = false := by
  cases reverse <;> simp [filters.ltStrength] at h ⊢ <;> linarith

/-- Non-strict inequality of strengths, as the negation of the comparison,
is transitive. -/
theorem ltStrength_neg_trans (reverse : Bool) (x y z : Token)
    (h1 : filters.ltStrength reverse y x = false)
    (h2 : filters.ltStrength reverse z y = false) :
    filters.ltStrength reverse z x = false := by
  cases reverse <;> simp [filters.ltStrength] at h1 h2 ⊢ <;> linarith

/-- Appending folds are concatenations of images. -/
theorem foldl_append_eq_catMap (f : α → List β) (l : List α) (acc : List β) :
    l.foldl (fun a kv => a ++ f kv) acc = acc ++ catMap f l := by
  induction l generalizing acc with
  | nil => simp [catMap]
  | cons x xs ih => simp [catMap, ih, List.append_assoc]

/-- catMap over a mapped list composes the functions. -/
theorem catMap_map (f : β → List γ) (g : α → β) (l : List α) :
    catMap f (l.map g) = catMap (fun x => f (g x)) l := by
  induction l with
  | nil => rfl
  | cons x xs ih => simp [catMap, ih]

/-- Taking one element is the optional head as a list. -/
theorem take_one_eq_head? (l : List Token) : l.take 1 = l.head?.toList := by
  cases l <;> rfl

/-- filterMap is the concatenation of the optional images as lists. -/
theorem filterMap_eq_catMap_toList (f : α → Option β) (l : List α) :
    l.filterMap f = catMap (fun x => (f x).toList) l := by
  induction l with
  | nil => rfl
  | cons x xs ih =>
    cases hfx : f x <;> simp [List.filterMap_cons, hfx, catMap, ih]

/-- Membership in the first-seen fold. -/
theorem mem_firstSeen_foldl (l : List String) (acc : List String) (x : String) :
    (x ∈ l.foldl (fun a n => if n ∈ a then a else a ++ [n]) acc) ↔ x ∈ acc ∨ x ∈ l := by
  induction l generalizing acc with
  | nil => simp
  | cons n ns ih =>
    rw [List.foldl_cons]
    by_cases h : n ∈ acc
    · rw [if_pos h, ih]
      simp only [List.mem_cons]
      constructor
      · rintro (hx | hx)
        · exact Or.inl hx
        · exact Or.inr (Or.inr hx)
      · rintro (hx | rfl | hx)
        · exact Or.inl hx
        · exact Or.inl h
        · exact Or.inr hx
    · rw [if_neg h, ih]
      simp only [List.mem_append, List.mem_singleton, List.mem_cons]
      tauto

/-- firstSeen has the same members as its input. -/
theorem mem_firstSeen (l : List String) (x : String) :
    x ∈ firstSeen l ↔ x ∈ l := by
  unfold firstSeen
  rw [mem_firstSeen_foldl]
  simp

/-- The first-seen fold preserves freedom from duplicates. -/
theorem nodup_firstSeen_foldl (l acc : List String) (hacc : acc.Nodup) :
    (l.foldl (fun a n => if n ∈ a then a else a ++ [n]) acc).Nodup := by
  induction l generalizing acc with
  | nil => simpa
  | cons n ns ih =>
    rw [List.foldl_cons]
    by_cases h : n ∈ acc
    · rw [if_pos h]
      exact ih acc hacc
    · rw [if_neg h]
      refine ih _ ?_
      rw [List.nodup_append]
      refine ⟨hacc, List.nodup_singleton n, ?_⟩
      intro x hx hx1
      rw [List.mem_singleton] at hx1
      subst hx1
      exact h hx

/-- firstSeen never repeats a member. -/
theorem nodup_firstSeen (l : List String) : (firstSeen l).Nodup :=
  nodup_firstSeen_foldl l [] List.nodup_nil

/-- firstSeen of a snoc adds the new member at the end when it is new. -/
theorem firstSeen_append (l : List String) (n : String) :
    firstSeen (l ++ [n])
      = if n ∈ firstSeen l then firstSeen l else firstSeen l ++ [n] := by
  unfold firstSeen
  rw [List.foldl_append]
  rfl

/-- collect_same_prompt of a snoc is one dict-update step. -/
theorem collect_append (ts : List Token) (t : Token) :
    filters.collect_same_prompt (ts ++ [t])
      = filters.addPrompt t.name t (filters.collect_same_prompt ts) := by
  unfold filters.collect_same_prompt
  rw [List.foldl_append]
  rfl

/-- The dict-update step appends to the group of a matching head key. -/
theorem addPrompt_cons_pos (n : String) (t : Token) (k : String)
    (v : List Token) (rest : List (String × List Token)) (h : k = n) :
    filters.addPrompt n t ((k, v) :: rest) = (k, v ++ [t]) :: rest := by
  simp [filters.addPrompt, h]

/-- The dict-update step skips a non-matching head key. -/
theorem addPrompt_cons_neg (n : String) (t : Token) (k : String)
    (v : List Token) (rest : List (String × List Token)) (h : ¬ k = n) :
    filters.addPrompt n t ((k, v) :: rest) = (k, v) :: filters.addPrompt n t rest := by
  simp [filters.addPrompt, h]

/-- The dict-update step on an association list in mapped form: an existing
key gets the token appended to its group, a new key is appended at the
end. -/
theorem addPrompt_map (names : List String) (F : String → List Token)
    (n : String) (t : Token) (hnd : names.Nodup) :
    filters.addPrompt n t (names.map (fun m => (m, F m)))
      = if n ∈ names
        then names.map (fun m => (m, if m = n then F m ++ [t] else F m))
        else names.map (fun m => (m, F m)) ++ [(n, [t])] := by
  induction names with
  | nil => simp [filters.addPrompt]
  | cons k ks ih =>
    rw [List.nodup_cons] at hnd
    obtain ⟨hk, hks⟩ := hnd
    rw [List.map_cons]
    by_cases hkn : k = n
    · subst hkn
      rw [addPrompt_cons_pos k t k (F k) _ rfl]
      rw [if_pos (List.mem_cons_self k ks), List.map_cons, if_pos rfl]
      congr 1
      apply List.map_congr_left
      intro m hm
      rw [if_neg]
      intro hmk
      subst hmk
      exact hk hm
    · rw [addPrompt_cons_neg n t k (F k) _ hkn]
      rw [ih hks]
      by_cases hn : n ∈ ks
      · rw [if_pos hn, if_pos (List.mem_cons_of_mem k hn), List.map_cons, if_neg hkn]
      · rw [if_neg hn, if_neg ?_, List.cons_append]
        intro hcon
        rcases List.mem_cons.mp hcon with h1 | h1
        · exact hkn h1.symm
        · exact hn h1

/-- A name absent from a token list filters to the empty group. -/
theorem filter_name_nil (ts : List Token) (n : String)
    (h : n ∉ ts.map Token.name) :
    ts.filter (fun x => decide (x.name = n)) = [] := by
  rw [List.filter_eq_nil_iff]
  intro x hx
  simp only [decide_eq_true_eq]
  intro hxn
  exact h (List.mem_map.mpr ⟨x, hx, hxn⟩)

/-- collect_same_prompt is exactly: the distinct names in first-seen order,
each paired with the in-order sublist of tokens of that name. -/
theorem collect_eq_firstSeen_map (ts : List Token) :
    filters.collect_same_prompt ts
      = (firstSeen (ts.map Token.name)).map
          (fun n => (n, ts.filter (fun x => decide (x.name = n)))) := by
  induction ts using List.reverseRecOn with
  | nil => rfl
  | append_singleton ts t ih =>
    rw [collect_append, ih, List.map_append]
    simp only [List.map_cons, List.map_nil]
    rw [firstSeen_append]
    by_cases hmem : t.name ∈ firstSeen (ts.map Token.name)
    · rw [if_pos hmem]
      rw [addPrompt_map _ _ _ _ (nodup_firstSeen _), if_pos hmem]
      apply List.map_congr_left
      intro m hm
      rw [List.filter_append]
      by_cases hmt : m = t.name
      · subst hmt
        rw [if_pos rfl]
        simp [List.filter_cons]
      · rw [if_neg hmt]
        have : t.name ≠ m := fun hc => hmt hc.symm
        simp [List.filter_cons, this]
    · rw [if_neg hmem]
      rw [addPrompt_map _ _ _ _ (nodup_firstSeen _), if_neg hmem]
      rw [List.map_append, List.map_cons, List.map_nil]
      congr 1
      · apply List.map_congr_left
        intro m hm
        rw [List.filter_append]
        have hmt : t.name ≠ m := by
          intro hc
          subst hc
          exact hmem hm
        simp [List.filter_cons, hmt]
      · rw [List.filter_append]
        rw [filter_name_nil ts t.name (fun hc => hmem ((mem_firstSeen _ _).mpr hc))]
        simp [List.filter_cons]

/-- Anything strictly below an element of a fixed strength has a different
strength, so the strength filter is stable under pySort. -/
theorem strength_filter_comp (reverse : Bool) (s : Rat) (x y : Token)
    (hpy : decide (y.strength = s) = true)
    (hlt : filters.ltStrength reverse x y = true) :
    decide (x.strength = s) = false := by
  rw [decide_eq_true_eq] at hpy
  rw [decide_eq_false_iff_not]
  subst hpy
  cases reverse with
  | false =>
    simp only [filters.ltStrength] at hlt
    simp only [Bool.false_eq_true, if_false, decide_eq_true_eq] at hlt
    exact ne_of_lt hlt
  | true =>
    simp only [filters.ltStrength] at hlt
    simp only [if_true, decide_eq_true_eq] at hlt
    exact ne_of_gt hlt

/-- For every name occurring in the list, the first-extreme search within
its group succeeds and returns a token of that name. -/
theorem find_extreme_some (reverse : Bool) (ts : List Token) (n : String)
    (hmem : n ∈ ts.map Token.name) :
    ∃ x, (ts.filter (fun y => decide (y.name = n))).find?
          (fun x => (ts.filter (fun y => decide (y.name = n))).all
            (fun u => !(filters.ltStrength reverse u x))) = some x
      ∧ x.name = n := by
  obtain ⟨w, hw, hwn⟩ := List.mem_map.mp hmem
  have hne : ts.filter (fun y => decide (y.name = n)) ≠ [] := by
    intro hnil
    have hwmem : w ∈ ts.filter (fun y => decide (y.name = n)) :=
      List.mem_filter.mpr ⟨hw, by simp [hwn]⟩
    rw [hnil] at hwmem
    cases hwmem
  have hhead := pySort_head (filters.ltStrength reverse) (ltStrength_irrefl reverse)
    (ltStrength_asymm reverse) (ltStrength_neg_trans reverse)
    (ts.filter (fun y => decide (y.name = n)))
  have hsne : filters.pySort (filters.ltStrength reverse)
      (ts.filter (fun y => decide (y.name = n))) ≠ [] := by
    intro hnil
    have hp := pySort_perm (filters.ltStrength reverse)
      (ts.filter (fun y => decide (y.name = n)))
    rw [hnil] at hp
    exact hne hp.symm.eq_nil
  obtain ⟨x, xs, hxs⟩ := List.exists_cons_of_ne_nil hsne
  refine ⟨x, ?_, ?_⟩
  · rw [← hhead, hxs]
    rfl
  · have hxg : x ∈ ts.filter (fun y => decide (y.name = n)) := by
      have hp := pySort_perm (filters.ltStrength reverse)
        (ts.filter (fun y => decide (y.name = n)))
      exact hp.mem_iff.mp (by rw [hxs]; simp)
    have hx2 := List.mem_filter.mp hxg
    simpa using hx2.2

/-- Mapping names over a filterMap whose results carry the searched name
recovers the name list. -/
theorem map_name_filterMap (names : List String) (f : String → Option Token)
    (h : ∀ n ∈ names, ∃ x, f n = some x ∧ x.name = n) :
    (names.filterMap f).map Token.name = names := by
  induction names with
  | nil => rfl
  | cons n ns ih =>
    obtain ⟨x, hfx, hxn⟩ := h n (List.mem_cons_self n ns)
    rw [List.filterMap_cons_some hfx, List.map_cons, hxn,
      ih (fun m hm => h m (List.mem_cons_of_mem n hm))]

/-- C6: unique keeps exactly one token per distinct name, listed in
first-seen name order; the kept token is the first one, in original input
order, of minimal strength within its name group, of maximal strength when
the reverse flag is set; and the spec's concrete selections on the
white-hair example hold (1.2 is the rational 6/5). -/
theorem claim_C6_unique_keeps_first_extreme (reverse : Bool) (ts : List Token) :
    (filters.unique reverse ts).map Token.name = firstSeen (ts.map Token.name)
    ∧ filters.unique reverse ts
      = (firstSeen (ts.map Token.name)).filterMap (fun n =>
          (ts.filter (fun y => decide (y.name = n))).find?
            (fun x => (ts.filter (fun y => decide (y.name = n))).all
              (fun u => !(filters.ltStrength reverse u x))))
    ∧ filters.unique false [⟨"white hair", mkRat 6 5⟩, ⟨"white hair", 1⟩]
        = [⟨"white hair", 1⟩]
    ∧ filters.unique true [⟨"white hair", mkRat 6 5⟩, ⟨"white hair", 1⟩]
        = [⟨"white hair", mkRat 6 5⟩] := by
  have hmain : filters.unique reverse ts
      = (firstSeen (ts.map Token.name)).filterMap (fun n =>
          (ts.filter (fun y => decide (y.name = n))).find?
            (fun x => (ts.filter (fun y => decide (y.name = n))).all
              (fun u => !(filters.ltStrength reverse u x)))) := by
    unfold filters.unique
    rw [foldl_append_eq_catMap, List.nil_append, collect_eq_firstSeen_map, catMap_map,
      filterMap_eq_catMap_toList]
    simp only [take_one_eq_head?,
      pySort_head (filters.ltStrength reverse) (ltStrength_irrefl reverse)
        (ltStrength_asymm reverse) (ltStrength_neg_trans reverse)]
  refine ⟨?_, hmain, by decide, by decide⟩
  rw [hmain]
  exact map_name_filterMap _ _
    (fun n hn => find_extreme_some reverse ts n ((mem_firstSeen _ _).mp hn))

/-- C7: sort groups tokens by name in first-seen order of distinct names,
each group being the in-order sublist of tokens of that name; each group is
sorted by strength ascending, descending when the reverse flag is set,
stably, so that tokens of equal strength keep their original relative
order, witnessed by the filter equation at every fixed strength; the groups
are concatenated in that name order; and the spec's concrete instance
holds. -/
theorem claim_C7_sort_grouped_stable (reverse : Bool) (ts : List Token) :
    filters.collect_same_prompt ts
      = (firstSeen (ts.map Token.name)).map
          (fun n => (n, ts.filter (fun x => decide (x.name = n))))
    ∧ filters.sort reverse ts
      = catMap (fun kv => filters.pySort (filters.ltStrength reverse) kv.2)
          (filters.collect_same_prompt ts)
    ∧ (∀ g : List Token, (filters.pySort (filters.ltStrength reverse) g).Perm g)
    ∧ (∀ g : List Token, List.Pairwise
        (fun a b => if reverse then b.strength ≤ a.strength else a.strength ≤ b.strength)
        (filters.pySort (filters.ltStrength reverse) g))
    ∧ (∀ (g : List Token) (s : Rat),
        (filters.pySort (filters.ltStrength reverse) g).filter
            (fun x => decide (x.strength = s))
          = g.filter (fun x => decide (x.strength = s)))
    ∧ filters.sort false [⟨"a", 2⟩, ⟨"a", 1⟩, ⟨"b", 1⟩]
        = [⟨"a", 1⟩, ⟨"a", 2⟩, ⟨"b", 1⟩] := by
  refine ⟨collect_eq_firstSeen_map ts, ?_,
    pySort_perm (filters.ltStrength reverse), ?_, ?_, by decide⟩
  · unfold filters.sort
    rw [foldl_append_eq_catMap, List.nil_append]
  · intro g
    have hp := pySort_pairwise (filters.ltStrength reverse)
      (ltStrength_asymm reverse) (ltStrength_neg_trans reverse) g
    refine hp.imp ?_
    intro a b hab
    cases reverse with
    | false =>
      simp only [filters.ltStrength, Bool.false_eq_true, if_false,
        decide_eq_false_iff_not] at hab
      simp only [Bool.false_eq_true, if_false]
      linarith [not_lt.mp hab]
    | true =>
      simp only [filters.ltStrength, if_true, decide_eq_false_iff_not] at hab
      simp only [if_true]
      linarith [not_lt.mp hab]
  · intro g s
    exact pySort_filter (filters.ltStrength reverse) (fun x => decide (x.strength = s))
      (fun x y hpy hlt => strength_filter_comp reverse s x y hpy hlt) g
